import Mathlib

/-!
Verification of the dependency aggregation and installation orchestration
engine of `mkchimeenv` (`mkchimeenv.py`), as a shallow embedding in Lean 4.

The embedding mirrors the source functions:
  * `match_opcode`               (mkchimeenv.py, `match_opcode`)
  * `RichProgress.update`        (mkchimeenv.py, `RichProgress`)
  * `find_requirements`          (mkchimeenv.py, `find_requirements`)
  * the aggregation section of the `create` command: extras activation,
    self-exclusion of managed repositories, already-installed exclusion,
    addition of manual extras, and grouping by canonical name.

External collaborators are modelled at their interface:
  * `packaging.utils.canonicalize_name` is embedded as `canonicalizeName`
    (lower-case the name and collapse every run of `-`, `_`, `.` to `-`);
  * `packaging.requirements.Requirement` is embedded as the structure `Req`
    with its string form `reqStr` (name, sorted bracketed extras, specifier);
    parsing of PEP 508 strings is abstracted as a `String → Option Req`
    argument, `none` standing for `InvalidRequirement`;
  * the `git.RemoteProgress` opcode constants are the library's documented
    bit values.

Python dictionaries keyed by strings are embedded as association lists in
insertion order; a failing dictionary subscript (Python `KeyError`) is an
`Except.error`.
-/

namespace Mkchimeenv

instance {ε α : Type} [DecidableEq ε] [DecidableEq α] : DecidableEq (Except ε α)
  | .ok a, .ok b =>
    if h : a = b then isTrue (by rw [h])
    else isFalse (fun t => h (Except.ok.inj t))
  | .error a, .error b =>
    if h : a = b then isTrue (by rw [h])
    else isFalse (fun t => h (Except.error.inj t))
  | .ok _, .error _ => isFalse (fun t => Except.noConfusion t)
  | .error _, .ok _ => isFalse (fun t => Except.noConfusion t)

/-- Characters treated as equivalent separators by `canonicalize_name`. -/
def isSep (c : Char) : Bool := c = '-' || c = '_' || c = '.'

/-- Core of `canonicalize_name`: the Boolean argument records whether the
previous character was a separator, so that a run of separators collapses to
a single `-`; every other character is lower-cased. -/
def canonGo : Bool → List Char → List Char
  | _, [] => []
  | prevSep, c :: rest =>
    if isSep c then
      if prevSep then canonGo true rest
      else '-' :: canonGo true rest
    else c.toLower :: canonGo false rest

/-- Embedding of `packaging.utils.canonicalize_name`:
`re.sub(r"[-_.]+", "-", name).lower()`. -/
def canonicalizeName (s : String) : String := String.mk (canonGo false s.data)

/-- Embedding of Python `name.replace(".", "-")`, the transformation `create`
applies to a requirement name before testing membership in the managed
repository name list. -/
def dotToDash (s : String) : String :=
  String.mk (s.data.map (fun c => if c = '.' then '-' else c))

/-- Embedding of `packaging.requirements.Requirement`: the raw distribution
name as written, the declared extras (in iteration order), and the version
specifier rendered as a string. Markers and direct URLs are not used by the
program and are omitted. -/
structure Req where
  name : String
  extras : List String
  specifier : String
deriving Repr, DecidableEq

/-- Lexicographic less-or-equal on character lists: the order Python uses to
compare `str` sort keys (code point by code point, a strict prefix coming
first). -/
def charListLE : List Char → List Char → Bool
  | [], _ => true
  | _ :: _, [] => false
  | a :: as, b :: bs => if a < b then true else if a = b then charListLE as bs else false

/-- Lexicographic less-or-equal on strings. -/
def strLE (a b : String) : Bool := charListLE a.data b.data

/-- Embedding of `str(Requirement)`: the raw name, the extras sorted and
bracketed when present, then the specifier. -/
def reqStr (r : Req) : String :=
  let extrasPart :=
    if r.extras.isEmpty then ""
    else "[" ++
      String.intercalate "," (r.extras.insertionSort (fun a b => strLE a b = true)) ++ "]"
  r.name ++ extrasPart ++ r.specifier

/-- Comparison used by every `sorted(requirements, key=lambda x: x.name)`
in the source: requirement order by raw name. -/
def reqLE (a b : Req) : Prop := strLE a.name b.name = true

instance : DecidableRel reqLE := fun a b =>
  inferInstanceAs (Decidable (strLE a.name b.name = true))

instance : IsTotal Req reqLE :=
  ⟨fun a b => by
    suffices h : ∀ as bs : List Char, charListLE as bs = true ∨ charListLE bs as = true from
      h a.name.data b.name.data
    intro as
    induction as with
    | nil => intro bs; exact Or.inl rfl
    | cons x xs ih =>
      intro bs
      cases bs with
      | nil => exact Or.inr rfl
      | cons y ys =>
        rcases lt_trichotomy x y with h | h | h
        · left; simp [charListLE, h]
        · subst h
          rcases ih ys with h2 | h2
          · left; simp [charListLE, h2]
          · right; simp [charListLE, h2]
        · right; simp [charListLE, h]⟩

instance : IsTrans Req reqLE :=
  ⟨fun a b c hab2 hbc2 => by
    suffices h : ∀ as bs cs : List Char,
        charListLE as bs = true → charListLE bs cs = true → charListLE as cs = true from
      h a.name.data b.name.data c.name.data hab2 hbc2
    intro as
    induction as with
    | nil => intro bs cs _ _; rfl
    | cons x xs ih =>
      intro bs cs h1 h2
      cases bs with
      | nil => simp [charListLE] at h1
      | cons y ys =>
        cases cs with
        | nil => simp [charListLE] at h2
        | cons z zs =>
          simp only [charListLE] at h1 h2 ⊢
          rcases lt_trichotomy x y with hab | hab | hab
          · rcases lt_trichotomy y z with hbc | hbc | hbc
            · simp [lt_trans hab hbc]
            · subst hbc; simp [hab]
            · rw [if_neg (asymm hbc), if_neg (ne_of_gt hbc)] at h2
              exact absurd h2 Bool.false_ne_true
          · subst hab
            rcases lt_trichotomy x z with hac | hac | hac
            · simp [hac]
            · subst hac
              rw [if_neg (lt_irrefl x), if_pos rfl] at h1 h2 ⊢
              exact ih ys zs h1 h2
            · rw [if_neg (asymm hac), if_neg (ne_of_gt hac)] at h2
              exact absurd h2 Bool.false_ne_true
          · rw [if_neg (asymm hab), if_neg (ne_of_gt hab)] at h1
            exact absurd h1 Bool.false_ne_true⟩

/-- Embedding of Python `sorted(reqs, key=lambda x: x.name)` (a stable sort
by raw name). -/
def sortReqs (reqs : List Req) : List Req := reqs.insertionSort reqLE

-- Bit constants of `git.RemoteProgress`, as defined by GitPython
-- (`1 << x` for consecutive `x`).
namespace RemoteProgress

def BEGIN : Nat := 1

def END : Nat := 2

def COUNTING : Nat := 4

def COMPRESSING : Nat := 8

def WRITING : Nat := 16

def RECEIVING : Nat := 32

def RESOLVING : Nat := 64

end RemoteProgress

/-- The ordered `codes` table of `match_opcode`. -/
def codes : List (Nat × String) :=
  [(RemoteProgress.COUNTING, "Counting (remote)"),
   (RemoteProgress.COMPRESSING, "Compressing (remote)"),
   (RemoteProgress.RECEIVING, "Receiving"),
   (RemoteProgress.RESOLVING, "Resolving")]

/-- The `for code, msg in codes: ... else: ...` loop of `match_opcode`. -/
def matchLoop (opcode : Nat) (done : Bool) : List (Nat × String) → Nat × String × Bool
  | [] => (0, "Unknown", done)
  | (code, msg) :: rest =>
    if opcode &&& code != 0 then (code, msg, done) else matchLoop opcode done rest

/-- Embedding of `match_opcode`: the terminal flag is the `END` bit of the
opcode; the stage is the first entry of `codes` whose mask intersects the
opcode, defaulting to `(0, "Unknown")`. -/
def match_opcode (opcode : Nat) : Nat × String × Bool :=
  matchLoop opcode ((opcode &&& RemoteProgress.END) != 0) codes

/-- Embedding of `find_requirements`: parse each entry of the manifest's
`dependencies` list (invalid entries are skipped by the
`except InvalidRequirement: continue` clause, i.e. `parse` returns `none`),
then return the parsed list sorted by raw name. The `FileNotFoundError`
branch concerns the filesystem and is outside this embedding. -/
def find_requirements (parse : String → Option Req) (dependencies : List String) :
    List Req :=
  sortReqs (dependencies.filterMap parse)

/-- State of one `rich` sub-meter, as created by `progress.add_task` and
modified by `progress.update`: its label, its total (`max_count`, possibly
absent), its completed count and its visibility flag. -/
structure TaskState where
  label : String
  total : Option Nat
  completed : Nat
  visible : Bool
deriving Repr, DecidableEq

/-- State of one `RichProgress` reporter: the completed count of the overall
task (created with `total=4`) and the `tasks` dictionary mapping a stage code
to its sub-meter, in insertion order. -/
structure RichProgressState where
  overallCompleted : Nat
  tasks : List (Nat × TaskState)
deriving Repr, DecidableEq

/-- `RichProgress.__init__`: no overall progress yet, empty `tasks` dict. -/
def richInit : RichProgressState := { overallCompleted := 0, tasks := [] }

/-- Embedding of `RichProgress.update`: decode the opcode; create the stage's
sub-meter on first occurrence (`if code not in self.tasks`); set the
sub-meter's completed count to `cur_count` and its visibility to `not done`;
advance the overall task when `done`. -/
def richUpdate (s : RichProgressState) (opCode curCount : Nat) (maxCount : Option Nat) :
    RichProgressState :=
  let m := match_opcode opCode
  let code := m.1
  let msg := m.2.1
  let done := m.2.2
  let tasks :=
    if s.tasks.any (fun p => p.1 == code) then s.tasks
    else s.tasks ++ [(code, ⟨msg, maxCount, 0, true⟩)]
  let tasks := tasks.map (fun p =>
    if p.1 == code then (p.1, { p.2 with completed := curCount, visible := !done }) else p)
  { overallCompleted := s.overallCompleted + (if done then 1 else 0), tasks := tasks }

/-- Run a sequence of progress events `(op_code, cur_count, max_count)`
through `RichProgress.update`. -/
def richRun (s : RichProgressState) (events : List (Nat × Nat × Option Nat)) :
    RichProgressState :=
  events.foldl (fun st e => richUpdate st e.1 e.2.1 e.2.2) s

/-- Lookup in a Python dictionary embedded as an association list. -/
def lookup? {α : Type} (k : String) (m : List (String × α)) : Option α :=
  (m.find? (fun p => p.1 == k)).map Prod.snd

/-- The `optional_requirements` dictionary built in `create`: repository name
to (extra name to requirement list). -/
def OptMap : Type := List (String × List (String × List Req))

/-- Embedding of the subscript chain `optional_requirements[req.name][extra]`;
a missing key at either level is a Python `KeyError`. -/
def lookupExtras (optional : OptMap) (name extra : String) : Except String (List Req) :=
  match lookup? name optional with
  | none => .error ("KeyError: " ++ name)
  | some groups =>
    match lookup? extra groups with
    | none => .error ("KeyError: " ++ extra)
    | some reqs => .ok reqs

/-- The inner `for extra in req.extras` loop of the extras-activation pass:
concatenate `optional_requirements[name][extra]` over the declared extras,
propagating a `KeyError`. -/
def extrasFor (optional : OptMap) (name : String) : List String → Except String (List Req)
  | [] => .ok []
  | e :: rest => do
    let l ← lookupExtras optional name e
    let t ← extrasFor optional name rest
    pure (l ++ t)

/-- What one requirement of the snapshot contributes during extras
activation: nothing unless `req.name.replace(".", "-")` is a managed
repository name, otherwise the requirement lists of its declared extras. -/
def activateOne (managedNames : List String) (optional : OptMap) (r : Req) :
    Except String (List Req) :=
  if managedNames.contains (dotToDash r.name) then
    extrasFor optional r.name r.extras
  else .ok []

/-- The additions produced by iterating extras activation over
`requirements.copy()` (the snapshot of the working list). -/
def activationAdds (managedNames : List String) (optional : OptMap) :
    List Req → Except String (List Req)
  | [] => .ok []
  | r :: rest => do
    let a ← activateOne managedNames optional r
    let b ← activationAdds managedNames optional rest
    pure (a ++ b)

/-- The extras-activation pass of `create`: iterate over a copy of the
working list, extending the working list with every activated extra's
requirements. -/
def activate (managedNames : List String) (optional : OptMap) (reqs : List Req) :
    Except String (List Req) :=
  (activationAdds managedNames optional reqs).map (fun adds => reqs ++ adds)

/-- The self-exclusion filter of `create`: keep a requirement only when
`req.name.replace(".", "-")` is not a managed repository name. -/
def selfExclude (managedNames : List String) (reqs : List Req) : List Req :=
  reqs.filter (fun r => !(managedNames.contains (dotToDash r.name)))

/-- The characters before the first occurrence of `==`, mirroring Python
`p.split("==")[0]`. -/
def beforeEqEq : List Char → List Char
  | [] => []
  | '=' :: '=' :: _ => []
  | c :: rest => c :: beforeEqEq rest

/-- The `installed_packages` list of `create`: for each line of
`pip freeze` output, the part before the first `==`
(`p.split("==")[0]`). -/
def installedFromFreeze (freezeLines : List String) : List String :=
  freezeLines.map (fun p => String.mk (beforeEqEq p.data))

/-- The already-installed filter of `create`: keep a requirement only when
its full string form is not an entry of `installed_packages`. -/
def removeInstalled (installed : List String) (reqs : List Req) : List Req :=
  reqs.filter (fun r => !(installed.contains (reqStr r)))

/-- One iteration of the grouping loop of `create`: insert the requirement
into the group of its canonical name, creating the group if absent. -/
def addReq (acc : List (String × List Req)) (r : Req) : List (String × List Req) :=
  let n := canonicalizeName r.name
  if acc.any (fun p => p.1 == n) then
    acc.map (fun p => if p.1 == n then (p.1, p.2 ++ [r]) else p)
  else acc ++ [(n, [r])]

/-- The `req_dict` grouping of `create`: sort the remaining requirements by
raw name, then group them by canonical name in a dictionary. -/
def groupReqs (reqs : List Req) : List (String × List Req) :=
  (sortReqs reqs).foldl addReq []

/-- The requirement list a grouping assigns to a canonical name (empty when
the name is not a key). -/
def groupLookup (c : String) (groups : List (String × List Req)) : List Req :=
  (lookup? c groups).getD []

/-- The install plan produced by the aggregation section of `create`:
`externalGroups` is `req_dict` (in key insertion order) and `internalOrder`
is `chime_repo_names` (the registry key order). -/
structure InstallPlan where
  externalGroups : List (String × List Req)
  internalOrder : List String
deriving Repr, DecidableEq

/-- The dependency-aggregation section of `create` (after cloning, before
installation): extras activation over a snapshot of the working list, then
self-exclusion of managed repositories, then already-installed exclusion,
then unconditional addition of the manual `extra_packages`, then grouping by
canonical name. `internalOrder` is the registry key order. -/
def aggregate (managedNames : List String) (optional : OptMap) (requirements : List Req)
    (installed : List String) (manualExtras : List Req) : Except String InstallPlan := do
  let reqs ← activate managedNames optional requirements
  let reqs := selfExclude managedNames reqs
  let reqs := removeInstalled installed reqs
  let reqs := reqs ++ manualExtras
  pure { externalGroups := groupReqs reqs, internalOrder := managedNames }

/-- The path and environment checks at the top of `create`: `none` models
`sys.exit(1)`; otherwise the pair records whether the target directory was
created (`path.mkdir()`) and whether a fresh virtual environment was created
(`venv.create`, run only when `path/venv` does not exist). -/
def createPathSetup (pathExists pathIsDir venvExists : Bool) : Option (Bool × Bool) :=
  if !pathExists then some (true, !venvExists)
  else if !pathIsDir then none
  else some (false, !venvExists)

/-! ### Concrete data for the end-to-end scenario

Registry `{A: (urlA, null), B: (urlB, null)}`; A requires `x>=1` and
`B[extra1]`; B requires `y` and declares the optional group
`extra1 = [z>=2]`. -/

/-- The requirement `x>=1` of the scenario. -/
def scnX : Req := { name := "x", extras := [], specifier := ">=1" }

/-- The requirement `B[extra1]` of the scenario. -/
def scnB : Req := { name := "B", extras := ["extra1"], specifier := "" }

/-- The requirement `y` of the scenario. -/
def scnY : Req := { name := "y", extras := [], specifier := "" }

/-- The requirement `z>=2` of the scenario. -/
def scnZ : Req := { name := "z", extras := [], specifier := ">=2" }

/-- The PEP 508 parser restricted to the scenario's four dependency
strings. -/
def scnParse (s : String) : Option Req :=
  if s = "x>=1" then some scnX
  else if s = "B[extra1]" then some scnB
  else if s = "y" then some scnY
  else if s = "z>=2" then some scnZ
  else none

/-- The `optional_requirements` dictionary of the scenario: A declares no
optional groups, B declares `extra1`. -/
def scnOptional : OptMap := [("A", []), ("B", [("extra1", [scnZ])])]

/-! ### Concrete data showing that extras activation is single-pass -/

/-- The requirement `A[e1]` (a managed repository with an extra). -/
def chainA : Req := { name := "A", extras := ["e1"], specifier := "" }

/-- The requirement `B[e2]`: activated by `A[e1]`, itself a managed
repository declaring an extra. -/
def chainB : Req := { name := "B", extras := ["e2"], specifier := "" }

/-- The requirement `w`, which only `B[e2]`'s activation would add. -/
def chainW : Req := { name := "w", extras := [], specifier := "" }

/-- Optional map: A's `e1` pulls in `B[e2]`; B's `e2` pulls in `w`. -/
def chainOpt : OptMap := [("A", [("e1", [chainB])]), ("B", [("e2", [chainW])])]

/-! ### Helper lemmas about keyed association lists -/

theorem map_fst_map_keyfix {α β : Type} (f : α × β → α × β)
    (hf : ∀ p, (f p).1 = p.1) (l : List (α × β)) :
    (l.map f).map Prod.fst = l.map Prod.fst := by
  induction l with
  | nil => rfl
  | cons p t ih => simp [hf p, ih]

theorem find?_map_keyfix {α β : Type} [BEq α] (f : α × β → α × β)
    (hf : ∀ p, (f p).1 = p.1) (c : α) :
    ∀ l : List (α × β),
      (l.map f).find? (fun p => p.1 == c) = (l.find? (fun p => p.1 == c)).map f
  | [] => rfl
  | p :: t => by
    rcases hp : (p.1 == c) with _ | _
    · simp only [List.map_cons, List.find?]
      rw [hf p, hp]
      exact find?_map_keyfix f hf c t
    · simp only [List.map_cons, List.find?]
      rw [hf p, hp]
      rfl

theorem charListLE_refl : ∀ as : List Char, charListLE as as = true
  | [] => rfl
  | a :: as => by simp [charListLE, lt_irrefl, charListLE_refl as]

/-! ### Lemmas about the grouping loop of `create` -/

theorem groupLookup_addReq (acc : List (String × List Req)) (r : Req) (c : String) :
    groupLookup c (addReq acc r)
      = groupLookup c acc ++ (if canonicalizeName r.name == c then [r] else []) := by
  unfold addReq groupLookup lookup?
  set n := canonicalizeName r.name with hn
  by_cases hany : (acc.any (fun p => p.1 == n)) = true
  · rw [if_pos hany]
    rw [find?_map_keyfix _ (fun p => by split <;> rfl)]
    rcases hfind : acc.find? (fun p => p.1 == c) with _ | p
    · have hcn : (n == c) = false := by
        rcases h : (n == c) with _ | _
        · rfl
        · exfalso
          rcases List.any_eq_true.mp hany with ⟨q, hq, hqn⟩
          have hqc : (q.1 == c) = true := by rw [← eq_of_beq h]; exact hqn
          exact absurd hqc (by simpa using List.find?_eq_none.mp hfind q hq)
      simp [hfind, hcn]
    · have hpc : (p.1 == c) = true := by
        have h2 := List.find?_some hfind
        simpa using h2
      rcases h : (n == c) with _ | _
      · have hpn : (p.1 == n) = false := by
          rcases h2 : (p.1 == n) with _ | _
          · rfl
          · rw [eq_of_beq h2] at hpc
            rw [hpc] at h
            cases h
        simp [hfind, hpn, eq_of_beq hpc, h, Ne.symm (ne_of_beq_false h)]
      · have hpn : (p.1 == n) = true := by
          rw [eq_of_beq hpc, ← eq_of_beq h]
          exact beq_self_eq_true n
        simp [hfind, hpn, eq_of_beq hpn, h]
  · rw [if_neg hany]
    rw [List.find?_append]
    rcases hfind : acc.find? (fun p => p.1 == c) with _ | p
    · rcases h : (n == c) with _ | _
      · simp [hfind, List.find?, h]
      · simp [hfind, List.find?, h]
    · have hpc : (p.1 == c) = true := by
        have h2 := List.find?_some hfind
        simpa using h2
      have hcn : (n == c) = false := by
        rcases h : (n == c) with _ | _
        · rfl
        · exfalso
          apply hany
          apply List.any_eq_true.mpr
          refine ⟨p, List.mem_of_find?_eq_some hfind, ?_⟩
          rw [eq_of_beq hpc, ← eq_of_beq h]
          exact beq_self_eq_true n
      simp [hfind, hcn]


theorem groupLookup_foldl (l : List Req) :
    ∀ (acc : List (String × List Req)) (c : String),
      groupLookup c (l.foldl addReq acc)
        = groupLookup c acc ++ l.filter (fun r => canonicalizeName r.name == c) := by
  induction l with
  | nil => intro acc c; simp
  | cons r t ih =>
    intro acc c
    rw [List.foldl_cons, ih, groupLookup_addReq, List.append_assoc, List.filter_cons]
    congr 1
    rcases h : (canonicalizeName r.name == c) with _ | _ <;> simp [h]

theorem keys_addReq (acc : List (String × List Req)) (r : Req) :
    (addReq acc r).map Prod.fst
      = if acc.any (fun p => p.1 == canonicalizeName r.name) then acc.map Prod.fst
        else acc.map Prod.fst ++ [canonicalizeName r.name] := by
  unfold addReq
  by_cases hany : (acc.any (fun p => p.1 == canonicalizeName r.name)) = true
  · rw [if_pos hany, if_pos hany]
    exact map_fst_map_keyfix _ (fun p => by split <;> rfl) acc
  · rw [if_neg hany, if_neg hany]
    simp

theorem keys_nodup_addReq (acc : List (String × List Req)) (r : Req)
    (h : (acc.map Prod.fst).Nodup) : ((addReq acc r).map Prod.fst).Nodup := by
  rw [keys_addReq]
  by_cases hany : (acc.any (fun p => p.1 == canonicalizeName r.name)) = true
  · rw [if_pos hany]; exact h
  · rw [if_neg hany]
    apply List.Nodup.append h (List.nodup_singleton _)
    intro a ha ha2
    rw [List.mem_singleton] at ha2
    subst ha2
    rcases List.mem_map.mp ha with ⟨p, hp, hp2⟩
    exact hany (List.any_eq_true.mpr ⟨p, hp, by rw [hp2]; exact beq_self_eq_true _⟩)

theorem keys_nodup_foldl (l : List Req) :
    ∀ acc : List (String × List Req),
      (acc.map Prod.fst).Nodup → ((l.foldl addReq acc).map Prod.fst).Nodup := by
  induction l with
  | nil => intro acc h; exact h
  | cons r t ih => intro acc h; exact ih (addReq acc r) (keys_nodup_addReq acc r h)

theorem groups_nonempty_foldl (l : List Req) :
    ∀ acc : List (String × List Req), (∀ p ∈ acc, p.2 ≠ []) →
      ∀ p ∈ l.foldl addReq acc, p.2 ≠ [] := by
  induction l with
  | nil => intro acc h; exact h
  | cons r t ih =>
    intro acc h
    apply ih
    intro p hp
    unfold addReq at hp
    by_cases hany : (acc.any (fun q => q.1 == canonicalizeName r.name)) = true
    · rw [if_pos hany] at hp
      rcases List.mem_map.mp hp with ⟨q, hq, hq2⟩
      subst hq2
      by_cases hqn : (q.1 == canonicalizeName r.name) = true
      · simp [hqn]
      · simpa [hqn] using h q hq
    · rw [if_neg hany] at hp
      rcases List.mem_append.mp hp with hp2 | hp2
      · exact h p hp2
      · rw [List.mem_singleton] at hp2
        subst hp2
        simp

theorem mem_keys_iff_groupLookup (c : String) :
    ∀ groups : List (String × List Req), (∀ p ∈ groups, p.2 ≠ []) →
      (c ∈ groups.map Prod.fst ↔ groupLookup c groups ≠ []) := by
  intro groups
  induction groups with
  | nil => intro _; simp [groupLookup, lookup?]
  | cons p t ih =>
    intro hne
    rcases hp : (p.1 == c) with _ | _
    · have hmem : (c ∈ (p :: t).map Prod.fst) ↔ (c ∈ t.map Prod.fst) := by
        simp only [List.map_cons, List.mem_cons]
        constructor
        · rintro (h | h)
          · exfalso
            rw [← h] at hp
            simp at hp
          · exact h
        · exact Or.inr
      have hlk : groupLookup c (p :: t) = groupLookup c t := by
        unfold groupLookup lookup?
        rw [List.find?_cons_of_neg _ (by simp [hp])]
      rw [hmem, hlk]
      exact ih (fun q hq => hne q (List.mem_cons_of_mem p hq))
    · have hc : p.1 = c := eq_of_beq hp
      have hlk : groupLookup c (p :: t) = p.2 := by
        unfold groupLookup lookup?
        rw [List.find?_cons_of_pos _ (by simp [hp])]
        rfl
      constructor
      · intro _
        rw [hlk]
        exact hne p (List.mem_cons_self p t)
      · intro _
        rw [List.map_cons, List.mem_cons]
        exact Or.inl hc.symm

theorem filter_orderedInsert_of_ne (n : String) (r : Req) (h : (r.name == n) = false) :
    ∀ l : List Req,
      (List.orderedInsert reqLE r l).filter (fun x => x.name == n)
        = l.filter (fun x => x.name == n)
  | [] => by simp [h]
  | b :: t => by
    by_cases hb : reqLE r b
    · rw [List.orderedInsert, if_pos hb, List.filter_cons, h]
      simp
    · rw [List.orderedInsert, if_neg hb, List.filter_cons,
        filter_orderedInsert_of_ne n r h t, List.filter_cons]

theorem filter_orderedInsert_of_eq (n : String) (r : Req) (h : (r.name == n) = true) :
    ∀ l : List Req,
      (List.orderedInsert reqLE r l).filter (fun x => x.name == n)
        = r :: l.filter (fun x => x.name == n)
  | [] => by simp [h]
  | b :: t => by
    by_cases hb : reqLE r b
    · rw [List.orderedInsert, if_pos hb, List.filter_cons, h]
      simp
    · have hbn : (b.name == n) = false := by
        rcases h2 : (b.name == n) with _ | _
        · rfl
        · exfalso
          apply hb
          show strLE r.name b.name = true
          rw [eq_of_beq h, eq_of_beq h2]
          exact charListLE_refl _
      rw [List.orderedInsert, if_neg hb, List.filter_cons, hbn,
        filter_orderedInsert_of_eq n r h t, List.filter_cons, hbn]
      simp

theorem filter_name_sortReqs (n : String) :
    ∀ l : List Req,
      (sortReqs l).filter (fun x => x.name == n) = l.filter (fun x => x.name == n)
  | [] => rfl
  | a :: t => by
    show (List.orderedInsert reqLE a (sortReqs t)).filter _ = _
    rcases h : (a.name == n) with _ | _
    · rw [filter_orderedInsert_of_ne n a h (sortReqs t), filter_name_sortReqs n t,
        List.filter_cons, h]
      simp
    · rw [filter_orderedInsert_of_eq n a h (sortReqs t), filter_name_sortReqs n t,
        List.filter_cons, h]
      simp

/-! ### Lemmas about extras activation -/

theorem extrasFor_ok_of_mem (optional : OptMap) (name : String) :
    ∀ (es : List String) (l : List Req), extrasFor optional name es = .ok l →
      ∀ e ∈ es, ∃ l2, lookupExtras optional name e = .ok l2 := by
  intro es
  induction es with
  | nil => intro l _ e he; cases he
  | cons e0 t ih =>
    intro l hok e he
    unfold extrasFor at hok
    rcases hlk : lookupExtras optional name e0 with s | l0
    · rw [hlk] at hok
      simp [Bind.bind, Except.bind] at hok
    · rw [hlk] at hok
      rcases List.mem_cons.mp he with he | he
      · exact ⟨l0, he ▸ hlk⟩
      · rcases hrest : extrasFor optional name t with s2 | l2
        · rw [hrest] at hok
          simp [Bind.bind, Except.bind] at hok
        · exact ih l2 hrest e he

theorem activationAdds_append (M : List String) (O : OptMap) :
    ∀ l1 l2 : List Req,
      activationAdds M O (l1 ++ l2)
        = (activationAdds M O l1).bind
            (fun a => (activationAdds M O l2).map (fun b => a ++ b)) := by
  intro l1
  induction l1 with
  | nil =>
    intro l2
    simp only [List.nil_append, activationAdds]
    rcases h : activationAdds M O l2 with s | b <;> simp [Except.bind, Except.map, Bind.bind, h]
  | cons r t ih =>
    intro l2
    simp only [List.cons_append, activationAdds, List.append_eq]
    rw [ih l2]
    rcases h1 : activateOne M O r with s | a
    · simp [Bind.bind, Except.bind, h1]
    · rcases h2 : activationAdds M O t with s2 | b
      · simp [Bind.bind, Except.bind, h1, h2]
      · rcases h3 : activationAdds M O l2 with s3 | c <;>
          simp [Bind.bind, Except.bind, Except.map, Pure.pure, Except.pure, h1, h2, h3,
            List.append_assoc]

theorem activationAdds_ok_extras (M : List String) (O : OptMap) :
    ∀ (reqs adds : List Req), activationAdds M O reqs = .ok adds →
      ∀ r ∈ reqs, M.contains (dotToDash r.name) = true →
        ∀ e ∈ r.extras, ∃ l, lookupExtras O r.name e = .ok l := by
  intro reqs
  induction reqs with
  | nil => intro adds _ r hr; cases hr
  | cons r0 t ih =>
    intro adds hok r hr hc e he
    unfold activationAdds at hok
    rcases h1 : activateOne M O r0 with s | a
    · rw [h1] at hok
      simp [Bind.bind, Except.bind] at hok
    · rw [h1] at hok
      rcases h2 : activationAdds M O t with s2 | b
      · rw [h2] at hok
        simp [Bind.bind, Except.bind] at hok
      · rcases List.mem_cons.mp hr with hr0 | hrt
        · subst hr0
          simp only [activateOne, hc, if_true] at h1
          exact extrasFor_ok_of_mem O r.name r.extras a h1 e he
        · exact ih b h2 r hrt hc e he

/-! ### Lemmas about `match_opcode` -/

theorem matchLoop_done (opcode : Nat) (d : Bool) :
    ∀ cs : List (Nat × String), (matchLoop opcode d cs).2.2 = d
  | [] => rfl
  | (code, msg) :: rest => by
    unfold matchLoop
    by_cases h : (opcode &&& code != 0) = true
    · rw [if_pos h]
    · rw [if_neg h]
      exact matchLoop_done opcode d rest

theorem matchLoop_find? (opcode : Nat) (d : Bool) :
    ∀ cs : List (Nat × String),
      matchLoop opcode d cs
        = (match cs.find? (fun c => opcode &&& c.1 != 0) with
            | some cm => (cm.1, cm.2, d)
            | none => (0, "Unknown", d))
  | [] => rfl
  | (code, msg) :: rest => by
    unfold matchLoop
    by_cases h : (opcode &&& code != 0) = true
    · rw [if_pos h, List.find?_cons_of_pos _ (by simpa using h)]
    · rw [if_neg h, matchLoop_find? opcode d rest,
        List.find?_cons_of_neg _ (by simpa using h)]

/-! ### Lemmas about the aggregation pipeline -/

theorem aggregate_eq (M : List String) (O : OptMap) (reqs : List Req)
    (inst : List String) (manual : List Req) :
    aggregate M O reqs inst manual
      = (activationAdds M O reqs).map (fun adds =>
          { externalGroups :=
              groupReqs (removeInstalled inst (selfExclude M (reqs ++ adds)) ++ manual),
            internalOrder := M }) := by
  unfold aggregate activate
  rcases h : activationAdds M O reqs with s | adds <;>
    simp [Bind.bind, Except.bind, Except.map, Pure.pure, Except.pure, h]

theorem groupLookup_groupReqs (reqs : List Req) (c : String) :
    groupLookup c (groupReqs reqs)
      = (sortReqs reqs).filter (fun r => canonicalizeName r.name == c) := by
  unfold groupReqs
  rw [groupLookup_foldl]
  simp [groupLookup, lookup?]

/-! ### Lemmas about the progress coordinator -/

theorem richUpdate_overall (s : RichProgressState) (op cur : Nat) (mc : Option Nat) :
    (richUpdate s op cur mc).overallCompleted
      = s.overallCompleted + (if (match_opcode op).2.2 then 1 else 0) := rfl

theorem richRun_overall (events : List (Nat × Nat × Option Nat)) :
    ∀ s : RichProgressState,
      (richRun s events).overallCompleted
        = s.overallCompleted + (events.filter (fun e => (match_opcode e.1).2.2)).length := by
  induction events with
  | nil => intro s; simp [richRun]
  | cons e t ih =>
    intro s
    show (richRun (richUpdate s e.1 e.2.1 e.2.2) t).overallCompleted = _
    rw [ih, richUpdate_overall, List.filter_cons]
    rcases h : (match_opcode e.1).2.2 with _ | _
    · simp [h]
    · simp [h]
      omega

theorem tasks_keys_richUpdate (s : RichProgressState) (op cur : Nat) (mc : Option Nat) :
    (richUpdate s op cur mc).tasks.map Prod.fst
      = if s.tasks.any (fun p => p.1 == (match_opcode op).1) then s.tasks.map Prod.fst
        else s.tasks.map Prod.fst ++ [(match_opcode op).1] := by
  simp only [richUpdate]
  rw [map_fst_map_keyfix _ (fun p => by split <;> rfl)]
  by_cases hany : (s.tasks.any (fun p => p.1 == (match_opcode op).1)) = true
  · rw [if_pos hany, if_pos hany]
  · rw [if_neg hany, if_neg hany]
    simp

theorem tasks_mem_richUpdate (s : RichProgressState) (op cur : Nat) (mc : Option Nat)
    (c : Nat) :
    c ∈ (richUpdate s op cur mc).tasks.map Prod.fst
      ↔ c ∈ s.tasks.map Prod.fst ∨ (match_opcode op).1 = c := by
  rw [tasks_keys_richUpdate]
  by_cases hany : (s.tasks.any (fun p => p.1 == (match_opcode op).1)) = true
  · rw [if_pos hany]
    constructor
    · exact Or.inl
    · rintro (h | h)
      · exact h
      · rcases List.any_eq_true.mp hany with ⟨p, hp, hpc⟩
        rw [← h]
        exact List.mem_map.mpr ⟨p, hp, eq_of_beq hpc⟩
  · rw [if_neg hany]
    simp only [List.mem_append, List.mem_singleton]
    constructor
    · rintro (h | h)
      · exact Or.inl h
      · exact Or.inr h.symm
    · rintro (h | h)
      · exact Or.inl h
      · exact Or.inr h.symm

theorem tasks_nodup_richUpdate (s : RichProgressState) (op cur : Nat) (mc : Option Nat)
    (h : (s.tasks.map Prod.fst).Nodup) :
    ((richUpdate s op cur mc).tasks.map Prod.fst).Nodup := by
  rw [tasks_keys_richUpdate]
  by_cases hany : (s.tasks.any (fun p => p.1 == (match_opcode op).1)) = true
  · rw [if_pos hany]
    exact h
  · rw [if_neg hany]
    apply List.Nodup.append h (List.nodup_singleton _)
    intro a ha ha2
    rw [List.mem_singleton] at ha2
    subst ha2
    rcases List.mem_map.mp ha with ⟨p, hp, hp2⟩
    exact hany (List.any_eq_true.mpr ⟨p, hp, by rw [hp2]; exact beq_self_eq_true _⟩)

theorem tasks_mem_richRun (events : List (Nat × Nat × Option Nat)) :
    ∀ (s : RichProgressState) (c : Nat),
      c ∈ (richRun s events).tasks.map Prod.fst
        ↔ c ∈ s.tasks.map Prod.fst ∨ ∃ e ∈ events, (match_opcode e.1).1 = c := by
  induction events with
  | nil => intro s c; simp [richRun]
  | cons e t ih =>
    intro s c
    show c ∈ (richRun (richUpdate s e.1 e.2.1 e.2.2) t).tasks.map Prod.fst ↔ _
    rw [ih, tasks_mem_richUpdate]
    simp only [List.mem_cons]
    constructor
    · rintro ((h | h) | h)
      · exact Or.inl h
      · exact Or.inr ⟨e, Or.inl rfl, h⟩
      · rcases h with ⟨e2, he2, he3⟩
        exact Or.inr ⟨e2, Or.inr he2, he3⟩
    · rintro (h | ⟨e2, (he2 | he2), he3⟩)
      · exact Or.inl (Or.inl h)
      · subst he2
        exact Or.inl (Or.inr he3)
      · exact Or.inr ⟨e2, he2, he3⟩

theorem tasks_nodup_richRun (events : List (Nat × Nat × Option Nat)) :
    ∀ s : RichProgressState,
      (s.tasks.map Prod.fst).Nodup → ((richRun s events).tasks.map Prod.fst).Nodup := by
  induction events with
  | nil => intro s h; exact h
  | cons e t ih =>
    intro s h
    exact ih (richUpdate s e.1 e.2.1 e.2.2) (tasks_nodup_richUpdate s e.1 e.2.1 e.2.2 h)

theorem richUpdate_meter (s : RichProgressState) (op cur : Nat) (mc : Option Nat) :
    ∃ t, (richUpdate s op cur mc).tasks.find? (fun p => p.1 == (match_opcode op).1)
        = some ((match_opcode op).1, t)
      ∧ t.completed = cur ∧ t.visible = !(match_opcode op).2.2 := by
  simp only [richUpdate]
  rw [find?_map_keyfix _ (fun p => by split <;> rfl)]
  by_cases hany : (s.tasks.any (fun p => p.1 == (match_opcode op).1)) = true
  · rw [if_pos hany]
    have hsome : (s.tasks.find? (fun p => p.1 == (match_opcode op).1)).isSome := by
      rw [List.find?_isSome]
      rcases List.any_eq_true.mp hany with ⟨p, hp, hpc⟩
      exact ⟨p, hp, hpc⟩
    rcases hfind : s.tasks.find? (fun p => p.1 == (match_opcode op).1) with _ | q
    · rw [hfind] at hsome
      cases hsome
    · have hqc : (q.1 == (match_opcode op).1) = true := by
        have h2 := List.find?_some hfind
        simpa using h2
      refine ⟨{ q.2 with completed := cur, visible := !(match_opcode op).2.2 }, ?_, rfl, rfl⟩
      rw [hfind]
      simp only [Option.map_some']
      simp [hqc, eq_of_beq hqc]
  · rw [if_neg hany]
    have hnone : s.tasks.find? (fun p => p.1 == (match_opcode op).1) = none := by
      apply List.find?_eq_none.mpr
      intro p hp hpc
      exact hany (List.any_eq_true.mpr ⟨p, hp, hpc⟩)
    rw [List.find?_append, hnone]
    refine ⟨⟨(match_opcode op).2.1, mc, cur, !(match_opcode op).2.2⟩, ?_, rfl, rfl⟩
    simp [List.find?]

/-! ### The claims -/

/-- C1 (counterexample): the self-exclusion invariant fails for case
variants. With the single managed repository `caput` and the single
requirement named `CAPUT` (same canonical name `caput`), the `create`
pipeline keeps the requirement — `req.name.replace(".", "-")` is `CAPUT`,
which is not literally in the managed name list — so `caput`, the canonical
name of a repository of `internalOrder`, appears as a key of
`externalGroups`. -/
theorem self_exclusion_counterexample :
    aggregate ["caput"] [("caput", [])]
        [{ name := "CAPUT", extras := [], specifier := "" }] [] []
      = .ok { externalGroups :=
                [("caput", [{ name := "CAPUT", extras := [], specifier := "" }])],
              internalOrder := ["caput"] }
    ∧ canonicalizeName "CAPUT" = "caput"
    ∧ canonicalizeName "caput" = "caput" := by decide

/-- C1 (amended): self-exclusion drops exactly the requirements whose raw
name with `.` replaced by `-` is literally (case-sensitively) one of the
managed repository names. Consequently, in any successful aggregation with
no manual extras, every requirement kept in `externalGroups` has
`name.replace(".", "-")` outside the managed list; case variants and
`-`/`_` variants of a managed name are not excluded and can surface as keys
equal to a managed repository's canonical name. -/
theorem self_exclusion_exact_match (M : List String) (O : OptMap) (reqs : List Req)
    (inst : List String) (plan : InstallPlan)
    (h : aggregate M O reqs inst [] = .ok plan) :
    (∀ (c : String) (r : Req), r ∈ groupLookup c plan.externalGroups →
      M.contains (dotToDash r.name) = false)
    ∧ ∀ (M2 : List String) (reqs2 : List Req) (r : Req),
        r ∈ selfExclude M2 reqs2 ↔ r ∈ reqs2 ∧ M2.contains (dotToDash r.name) = false := by
  constructor
  · rw [aggregate_eq] at h
    rcases hadds : activationAdds M O reqs with s | adds
    · rw [hadds] at h
      simp [Except.map] at h
    · rw [hadds] at h
      simp only [Except.map] at h
      have hplan := Except.ok.inj h
      intro c r hr
      rw [← hplan] at hr
      dsimp only at hr
      rw [groupLookup_groupReqs] at hr
      have hr2 := (List.mem_filter.mp hr).1
      unfold sortReqs at hr2
      rw [List.mem_insertionSort] at hr2
      rw [List.append_nil] at hr2
      simp only [removeInstalled, selfExclude, List.mem_filter] at hr2
      have := hr2.1.2
      simpa using this
  · intro M2 reqs2 r
    unfold selfExclude
    rw [List.mem_filter]
    constructor
    · rintro ⟨h1, h2⟩
      exact ⟨h1, by simpa using h2⟩
    · rintro ⟨h1, h2⟩
      exact ⟨h1, by simpa using h2⟩

/-- C1 (witness): the amended theorem applied to the concrete input of a
managed `caput` and a requirement `cora`, whose aggregation succeeds. -/
theorem self_exclusion_exact_match_witness :
    (["caput"] : List String).contains
        (dotToDash ({ name := "cora", extras := [], specifier := "" } : Req).name)
      = false :=
  (self_exclusion_exact_match ["caput"] [("caput", [])]
      [{ name := "cora", extras := [], specifier := "" }] []
      { externalGroups := [("cora", [{ name := "cora", extras := [], specifier := "" }])],
        internalOrder := ["caput"] }
      (by decide)).1
    "cora" { name := "cora", extras := [], specifier := "" } (by decide)

/-- C2 (counterexample): a requirement that names the managed repository `B`
and activates the extra `extra2`, which B's manifest does not declare, is not
silently ignored: the subscript `optional_requirements[req.name][extra]`
raises `KeyError` and aggregation fails. -/
theorem undeclared_extra_counterexample :
    aggregate ["A", "B"] [("A", []), ("B", [("extra1", [])])]
        [{ name := "B", extras := ["extra2"], specifier := "" }] [] []
      = .error "KeyError: extra2" := by decide

/-- C2 (amended): extras activation is fatal on an undeclared reference:
whenever aggregation succeeds, every requirement of the initial list that
names a managed repository had all of its referenced extras declared (both
dictionary lookups succeed); contrapositively, an undeclared extra reference
makes aggregation fail with a `KeyError` instead of being ignored. -/
theorem undeclared_extra_is_fatal (M : List String) (O : OptMap) (reqs : List Req)
    (inst : List String) (manual : List Req) (plan : InstallPlan)
    (h : aggregate M O reqs inst manual = .ok plan) :
    ∀ r ∈ reqs, M.contains (dotToDash r.name) = true →
      ∀ e ∈ r.extras, ∃ l, lookupExtras O r.name e = .ok l := by
  rw [aggregate_eq] at h
  rcases hadds : activationAdds M O reqs with s | adds
  · rw [hadds] at h
    simp [Except.map] at h
  · exact activationAdds_ok_extras M O reqs adds hadds

/-- C2 (witness): the amended theorem applied to a concrete successful
aggregation in which the one referenced extra is declared. -/
theorem undeclared_extra_is_fatal_witness :
    ∃ l, lookupExtras [("B", [("extra1", [])])] "B" "extra1" = .ok l :=
  undeclared_extra_is_fatal ["B"] [("B", [("extra1", [])])]
    [{ name := "B", extras := ["extra1"], specifier := "" }] [] []
    { externalGroups := [], internalOrder := ["B"] } (by decide)
    { name := "B", extras := ["extra1"], specifier := "" } (by decide) (by decide)
    "extra1" (by decide)

/-- C3 (counterexample): the overall counter is not protected against a
repeated terminal signal. Two updates with opcode 6 (`COUNTING ||| END`) —
the same stage completing twice — advance the overall counter twice, even
though only one distinct stage (code 4) ever completed. -/
theorem progress_double_count_counterexample :
    (richRun richInit [(6, 1, some 1), (6, 1, some 1)]).overallCompleted = 2
    ∧ ([(6, 1, (some 1 : Option Nat)), (6, 1, some 1)].map
          (fun e => (match_opcode e.1).1)).dedup = [4] := by decide

/-- C3 (amended): the overall counter advances exactly once per received
terminal signal (so once per stage only when the transport emits one
terminal signal per stage); one sub-meter per distinct stage code is created
lazily on first occurrence (a stage code is a key if and only if some event
decoded to it, and keys are never duplicated); and an update whose signal
carries the terminal bit leaves the stage's meter present in the task map
with its visibility flag cleared — hidden, not removed. -/
theorem progress_per_terminal_signal (events : List (Nat × Nat × Option Nat)) :
    ((richRun richInit events).overallCompleted
        = (events.filter (fun e => (match_opcode e.1).2.2)).length)
    ∧ (∀ c : Nat, c ∈ (richRun richInit events).tasks.map Prod.fst
        ↔ ∃ e ∈ events, (match_opcode e.1).1 = c)
    ∧ ((richRun richInit events).tasks.map Prod.fst).Nodup
    ∧ (∀ (s : RichProgressState) (op cur : Nat) (mc : Option Nat),
        (match_opcode op).2.2 = true →
        ∃ t, (richUpdate s op cur mc).tasks.find? (fun p => p.1 == (match_opcode op).1)
            = some ((match_opcode op).1, t)
          ∧ t.completed = cur ∧ t.visible = false) := by
  refine ⟨?_, ?_, ?_, ?_⟩
  · rw [richRun_overall]
    simp [richInit]
  · intro c
    rw [tasks_mem_richRun]
    simp [richInit]
  · exact tasks_nodup_richRun events richInit (by simp [richInit])
  · intro s op cur mc hdone
    rcases richUpdate_meter s op cur mc with ⟨t, h1, h2, h3⟩
    exact ⟨t, h1, h2, by simp [h3, hdone]⟩

/-- C4: the end-to-end scenario. With registry order `[A, B]`, A's manifest
requiring `x>=1` and `B[extra1]`, B's manifest requiring `y` with optional
`extra1 = [z>=2]`, nothing installed and no manual extras, aggregation
produces `externalGroups = {x: [x>=1], y: [y], z: [z>=2]}` (B excluded by
self-exclusion) and `internalOrder = [A, B]`. -/
theorem end_to_end_scenario :
    aggregate ["A", "B"] scnOptional
        (find_requirements scnParse ["x>=1", "B[extra1]"]
          ++ find_requirements scnParse ["y"])
        [] []
      = .ok { externalGroups := [("x", [scnX]), ("y", [scnY]), ("z", [scnZ])],
              internalOrder := ["A", "B"] } := by decide

/-- C5: the already-installed exclusion is a string-level check: a
requirement is removed if and only if its full string form is an entry of
`installed_packages`; and concretely a requirement `y>=2` survives when the
environment reports `y==1.0` (entry `y`), because `"y>=2"` differs from
`"y"`. -/
theorem already_installed_exact_string :
    (∀ (installed : List String) (reqs : List Req) (r : Req),
      r ∈ removeInstalled installed reqs
        ↔ r ∈ reqs ∧ installed.contains (reqStr r) = false)
    ∧ removeInstalled (installedFromFreeze ["y==1.0"])
        [{ name := "y", extras := [], specifier := ">=2" }]
      = [{ name := "y", extras := [], specifier := ">=2" }] := by
  constructor
  · intro installed reqs r
    unfold removeInstalled
    rw [List.mem_filter]
    constructor
    · rintro ⟨h1, h2⟩
      exact ⟨h1, by simpa using h2⟩
    · rintro ⟨h1, h2⟩
      exact ⟨h1, by simpa using h2⟩
  · decide

/-- C6: `match_opcode` tests the stage masks in the fixed order Counting,
Compressing, Receiving, Resolving and returns the first whose mask
intersects the opcode, `(0, "Unknown")` when none does; and the completion
flag is exactly the `END` bit of the opcode, independent of which stage
matched. -/
theorem match_opcode_priority_and_done (n : Nat) :
    ((match_opcode n).2.2 = ((n &&& RemoteProgress.END) != 0))
    ∧ (match_opcode n
        = (match codes.find? (fun c => n &&& c.1 != 0) with
            | some cm => (cm.1, cm.2, (n &&& RemoteProgress.END) != 0)
            | none => (0, "Unknown", (n &&& RemoteProgress.END) != 0)))
    ∧ codes.map Prod.fst
        = [RemoteProgress.COUNTING, RemoteProgress.COMPRESSING,
           RemoteProgress.RECEIVING, RemoteProgress.RESOLVING] := by
  refine ⟨?_, ?_, rfl⟩
  · exact matchLoop_done n _ codes
  · exact matchLoop_find? n _ codes

/-- C7: grouping by canonical name: the keys of `req_dict` are distinct and
a canonical name is a key exactly when some requirement maps to it; each
group is exactly the sublist of the sorted working list whose canonical name
is that key (so distinct specs with the same canonical name are preserved as
siblings under one key); the working list is sorted by raw name and the sort
is stable (requirements with equal raw name keep their input order). -/
theorem grouping_by_canonical_name (reqs : List Req) :
    (((groupReqs reqs).map Prod.fst).Nodup)
    ∧ (∀ c : String, c ∈ (groupReqs reqs).map Prod.fst
        ↔ ∃ r ∈ reqs, canonicalizeName r.name = c)
    ∧ (∀ c : String, groupLookup c (groupReqs reqs)
        = (sortReqs reqs).filter (fun r => canonicalizeName r.name == c))
    ∧ (∀ n : String, (sortReqs reqs).filter (fun r => r.name == n)
        = reqs.filter (fun r => r.name == n))
    ∧ List.Sorted reqLE (sortReqs reqs) := by
  refine ⟨?_, ?_, fun c => groupLookup_groupReqs reqs c,
    fun n => filter_name_sortReqs n reqs, List.sorted_insertionSort reqLE reqs⟩
  · exact keys_nodup_foldl (sortReqs reqs) [] (by simp)
  · intro c
    rw [mem_keys_iff_groupLookup c (groupReqs reqs)
        (groups_nonempty_foldl (sortReqs reqs) [] (by simp)),
      groupLookup_groupReqs]
    constructor
    · intro h
      have hex : ∃ r ∈ sortReqs reqs, (canonicalizeName r.name == c) = true := by
        by_contra hno
        push_neg at hno
        exact h (List.filter_eq_nil_iff.mpr fun a ha => by simp [hno a ha])
      rcases hex with ⟨r, hr, hpr⟩
      refine ⟨r, ?_, eq_of_beq hpr⟩
      unfold sortReqs at hr
      exact (List.mem_insertionSort _).mp hr
    · rintro ⟨r, hr, hcr⟩
      intro hnil
      have hrs : r ∈ sortReqs reqs := by
        unfold sortReqs
        exact (List.mem_insertionSort _).mpr hr
      have hmem : r ∈ (sortReqs reqs).filter (fun r => canonicalizeName r.name == c) :=
        List.mem_filter.mpr ⟨hrs, by rw [hcr]; exact beq_self_eq_true c⟩
      rw [hnil] at hmem
      cases hmem

/-- C8: `find_requirements` returns exactly the entries of the manifest's
dependency list that parse (each one a `RequirementSpec`, the invalid ones
dropped without an error), as a permutation of the parsed sublist, sorted by
raw package name. -/
theorem find_requirements_valid_sorted (parse : String → Option Req)
    (dependencies : List String) :
    (find_requirements parse dependencies).Perm (dependencies.filterMap parse)
    ∧ List.Sorted reqLE (find_requirements parse dependencies) :=
  ⟨List.perm_insertionSort reqLE _, List.sorted_insertionSort reqLE _⟩

/-- C9: extras activation is single-pass. The additions contributed by the
snapshot compose pointwise over the snapshot
(`activationAdds` of an appended list is the concatenation of the two
parts' additions — nothing re-examines what activation appended), and in the
concrete chain scenario the output contains `B[e2]`, added by activation,
whose own activation would add `w`, yet `w` is absent from the output. -/
theorem extras_activation_single_pass :
    (∀ (M : List String) (O : OptMap) (l1 l2 : List Req),
      activationAdds M O (l1 ++ l2)
        = (activationAdds M O l1).bind
            (fun a => (activationAdds M O l2).map (fun b => a ++ b)))
    ∧ activate ["A", "B"] chainOpt [chainA] = .ok [chainA, chainB]
    ∧ activateOne ["A", "B"] chainOpt chainB = .ok [chainW]
    ∧ chainW ∉ [chainA, chainB] :=
  ⟨activationAdds_append, by decide, by decide, by decide⟩

/-- C10: when the target path exists and is a directory, `create` does not
exit with code 1, and the virtual-environment creation step runs exactly
when `path/venv` is absent (an existing environment is reused). -/
theorem create_path_reuse :
    ∀ venvExists : Bool,
      createPathSetup true true venvExists = some (false, !venvExists) := by decide

end Mkchimeenv
